import Mathlib

/-!
Shallow embedding of the remembered-set subsystem of a generational,
compacting garbage collector (`src/heap/remembered-set.h`): the
`RememberedSet<direction>` facade over per-region slot tables, and the
`LocalSlotsBuffer` used to log slot addresses during relocation.

Machine addresses and offsets are modelled as `Nat`.  The external
collaborators (the per-region slot-set container, the typed slot set,
the region enumerator and the heap membership predicates) are not part
of the excerpt; they are modelled from the spec's stated contracts and
each such definition is marked `Modelled from the spec`.
-/

namespace V8

/-- Result of a filtering callback: keep the slot or drop it. -/
inductive SlotCallbackResult where
  | KEEP_SLOT
  | REMOVE_SLOT
deriving DecidableEq, Repr

export SlotCallbackResult (KEEP_SLOT REMOVE_SLOT)

/-- The compile-time direction tag of a remembered set. -/
inductive PointerDirection where
  | OLD_TO_OLD
  | OLD_TO_NEW
deriving DecidableEq, Repr

export PointerDirection (OLD_TO_OLD OLD_TO_NEW)

/-- Modelled from the spec: the kinds of memory regions the region
enumerator can filter by (all regions; all but code regions; all but
fixed-metadata (map) regions). -/
inductive Space where
  | newSpace
  | oldSpace
  | codeSpace
  | mapSpace
  | largeObjectSpace
deriving DecidableEq, Repr

/-- The three region scopes requested from the region enumerator. -/
inductive ChunkScope where
  | ALL
  | ALL_BUT_CODE_SPACE
  | ALL_BUT_MAP_SPACE
deriving DecidableEq, Repr

/-- Modelled from the spec: whether a region of the given space kind is
produced by the region enumerator under the given scope. -/
def inScope (scope : ChunkScope) (s : Space) : Bool :=
  match scope with
  | ChunkScope.ALL => true
  | ChunkScope.ALL_BUT_CODE_SPACE => s != Space.codeSpace
  | ChunkScope.ALL_BUT_MAP_SPACE => s != Space.mapSpace

/-- Modelled from the spec: the fixed sub-region unit size
(`Page::kPageSize`, 512 KB in the source tree this header belongs to). -/
def kPageSize : Nat := 524288

/-- Modelled from the spec: the per-unit sparse set of byte offsets.
Set semantics: re-inserting a present offset is a no-op. -/
abbrev SlotSet := List Nat

/-- Modelled from the spec: `insert(offset)`; no-op when the offset is
already recorded (set semantics). -/
def SlotSet.insert (s : SlotSet) (o : Nat) : SlotSet :=
  if o ∈ s then s else s ++ [o]

/-- Modelled from the spec: `remove(offset)`; absence is not an error. -/
def SlotSet.remove (s : SlotSet) (o : Nat) : SlotSet :=
  s.filter (fun x => x ≠ o)

/-- Modelled from the spec: `remove_range(start, end)` drops every
recorded offset in the half-open range. -/
def SlotSet.removeRange (s : SlotSet) (startO endO : Nat) : SlotSet :=
  s.filter (fun x => ¬ (startO ≤ x ∧ x < endO))

/-- Modelled from the spec: `iterate(callback) -> retained_count`.
Applies the callback to the absolute address of every recorded offset,
keeps exactly the slots for which it answers keep, and returns the
retained count, the surviving set and the list of visited addresses. -/
def SlotSet.iterate (s : SlotSet) (base : Nat) (cb : Nat → SlotCallbackResult) :
    Nat × SlotSet × List Nat :=
  match s with
  | [] => (0, [], [])
  | o :: rest =>
    let r := cb (base + o)
    let (n, kept, vis) := SlotSet.iterate rest base cb
    match r with
    | KEEP_SLOT => (n + 1, o :: kept, (base + o) :: vis)
    | REMOVE_SLOT => (n, kept, (base + o) :: vis)

/-- Modelled from the spec: the typed slot set holds (tag, offset)
pairs. -/
abbrev TypedSlotSet := List (Nat × Nat)

/-- Modelled from the spec: typed `insert(tag, offset)`. -/
def TypedSlotSet.insert (s : TypedSlotSet) (tag o : Nat) : TypedSlotSet :=
  s ++ [(tag, o)]

/-- Modelled from the spec: typed `iterate(callback) -> retained_count`;
the callback receives the tag and the absolute slot address. -/
def TypedSlotSet.iterate (s : TypedSlotSet) (base : Nat)
    (cb : Nat → Nat → SlotCallbackResult) : Nat × TypedSlotSet × List (Nat × Nat) :=
  match s with
  | [] => (0, [], [])
  | (tag, o) :: rest =>
    let r := cb tag (base + o)
    let (n, kept, vis) := TypedSlotSet.iterate rest base cb
    match r with
    | KEEP_SLOT => (n + 1, (tag, o) :: kept, (tag, base + o) :: vis)
    | REMOVE_SLOT => (n, kept, (tag, base + o) :: vis)

/-- A memory region (`MemoryChunk`/`Page`): base address, size, space
kind, and the three optional lazily allocated tables.  The untyped
tables are one `SlotSet` per fixed-size unit of the region. -/
structure MemoryChunk where
  address : Nat
  size : Nat
  space : Space
  old_to_old_slots : Option (List SlotSet)
  old_to_new_slots : Option (List SlotSet)
  typed_old_to_old_slots : Option TypedSlotSet
deriving DecidableEq, Repr

/-- Number of fixed-size units of a chunk:
`(chunk->size() + Page::kPageSize - 1) / Page::kPageSize`. -/
def pagesOf (c : MemoryChunk) : Nat :=
  (c.size + kPageSize - 1) / kPageSize

/-- Source `RememberedSet::GetSlotSet`: the direction's untyped table. -/
def GetSlotSet (d : PointerDirection) (c : MemoryChunk) : Option (List SlotSet) :=
  match d with
  | OLD_TO_OLD => c.old_to_old_slots
  | OLD_TO_NEW => c.old_to_new_slots

/-- Store a value into the direction's untyped table
(used to model `AllocateSlotSet` / `ReleaseSlotSet` / in-place update). -/
def setSlotSet (d : PointerDirection) (c : MemoryChunk)
    (v : Option (List SlotSet)) : MemoryChunk :=
  match d with
  | OLD_TO_OLD => { c with old_to_old_slots := v }
  | OLD_TO_NEW => { c with old_to_new_slots := v }

/-- Source `RememberedSet::ReleaseSlotSet`: frees the direction's table. -/
def ReleaseSlotSet (d : PointerDirection) (c : MemoryChunk) : MemoryChunk :=
  setSlotSet d c none

/-- Source `RememberedSet::AllocateSlotSet`: modelled from the spec, the lazy
allocation creates one empty sub-set per fixed-size unit of the region. -/
def AllocateSlotSet (c : MemoryChunk) : List SlotSet :=
  List.replicate (pagesOf c) ([] : SlotSet)

/-- Source `RememberedSet::Insert(page, slot_addr)`: ensures the table exists,
then records `offset % kPageSize` in sub-set `offset / kPageSize`. -/
def RememberedSet.Insert (d : PointerDirection) (page : MemoryChunk)
    (slot_addr : Nat) : MemoryChunk :=
  let sets := match GetSlotSet d page with
    | none => AllocateSlotSet page
    | some s => s
  let offset := slot_addr - page.address
  setSlotSet d page (some (sets.set (offset / kPageSize)
    (SlotSet.insert (sets.getD (offset / kPageSize) []) (offset % kPageSize))))

/-- Source `RememberedSet::Remove(page, slot_addr)`: no-op without a table,
otherwise removes the offset from its sub-set. -/
def RememberedSet.Remove (d : PointerDirection) (page : MemoryChunk)
    (slot_addr : Nat) : MemoryChunk :=
  match GetSlotSet d page with
  | none => page
  | some sets =>
    let offset := slot_addr - page.address
    setSlotSet d page (some (sets.set (offset / kPageSize)
      (SlotSet.remove (sets.getD (offset / kPageSize) []) (offset % kPageSize))))

/-- Source `RememberedSet::RemoveRange(page, start, end)`: no-op without a
table, otherwise removes `[start-base, end-base)` from the page's set
(the call `slot_set->RemoveRange(...)` acts on sub-set 0). -/
def RememberedSet.RemoveRange (d : PointerDirection) (page : MemoryChunk)
    (startAddr endAddr : Nat) : MemoryChunk :=
  match GetSlotSet d page with
  | none => page
  | some sets =>
    let startOffset := startAddr - page.address
    let endOffset := endAddr - page.address
    setSlotSet d page (some (sets.set 0
      (SlotSet.removeRange (sets.getD 0 []) startOffset endOffset)))

/-- The chunk scope used by `RememberedSet::Iterate` for a direction. -/
def scopeOf (d : PointerDirection) : ChunkScope :=
  match d with
  | OLD_TO_OLD => ChunkScope.ALL
  | OLD_TO_NEW => ChunkScope.ALL_BUT_CODE_SPACE

/-- One chunk's processing inside `RememberedSet::Iterate`: when a table
exists, iterate all sub-units accumulating `new_count`, release the
table when the accumulated count is zero.  Also returns the addresses
the callback was applied to. -/
def iterateChunk (d : PointerDirection) (c : MemoryChunk)
    (cb : Nat → SlotCallbackResult) : MemoryChunk × List Nat :=
  match GetSlotSet d c with
  | none => (c, [])
  | some sets =>
    let results := (List.range (pagesOf c)).map (fun p =>
      SlotSet.iterate (sets.getD p []) (c.address + p * kPageSize) cb)
    let newCount : Nat := (results.map (fun r => r.1)).sum
    let visited : List Nat := (results.map (fun r => r.2.2)).flatten
    if newCount = 0 then
      (ReleaseSlotSet d c, visited)
    else
      (setSlotSet d c (some (results.map (fun r => r.2.1))), visited)

/-- Source `RememberedSet::Iterate(heap, callback)`: walks every chunk of the
direction's scope and processes those with a table; returns the updated
heap and the visited addresses. -/
def RememberedSet.Iterate (d : PointerDirection) (heap : List MemoryChunk)
    (cb : Nat → SlotCallbackResult) : List MemoryChunk × List Nat :=
  match heap with
  | [] => ([], [])
  | c :: rest =>
    let (restH, restV) := RememberedSet.Iterate d rest cb
    if inScope (scopeOf d) c.space then
      let (cNew, v) := iterateChunk d c cb
      (cNew :: restH, v ++ restV)
    else
      (c :: restH, restV)

/-- All addresses currently recorded in a chunk's table for a direction
(the addresses a scan applies its callback to). -/
def chunkRecordedAddresses (d : PointerDirection) (c : MemoryChunk) : List Nat :=
  match GetSlotSet d c with
  | none => []
  | some sets =>
    ((List.range (pagesOf c)).map (fun p =>
      (sets.getD p []).map (fun o => c.address + p * kPageSize + o))).flatten

/-- The accumulated retained count of one chunk's scan. -/
def retainedCount (d : PointerDirection) (c : MemoryChunk)
    (cb : Nat → SlotCallbackResult) : Nat :=
  match GetSlotSet d c with
  | none => 0
  | some sets =>
    ((List.range (pagesOf c)).map (fun p =>
      (SlotSet.iterate (sets.getD p []) (c.address + p * kPageSize) cb).1)).sum

/-- Mutable memory: the value stored at each slot address. -/
def Mem := Nat → Nat

/-- Modelled from the spec: the heap membership predicates consumed by
the evacuation wrapper ("is this address in the from-half of the young
generation", "in the to-half", "in the young generation at all"). -/
structure HeapPredicates where
  inFromSpace : Nat → Bool
  inToSpace : Nat → Bool
  inNewSpace : Nat → Bool

/-- Modelled from the spec: stateful per-unit iterate, threading the
memory a relocation callback may write. -/
def SlotSet.iterateSt (s : SlotSet) (base : Nat)
    (cb : Mem → Nat → SlotCallbackResult × Mem) (mem : Mem) :
    (Nat × SlotSet × List Nat) × Mem :=
  match s with
  | [] => ((0, [], []), mem)
  | o :: rest =>
    let (r, mem1) := cb mem (base + o)
    let ((n, kept, vis), mem2) := SlotSet.iterateSt rest base cb mem1
    match r with
    | KEEP_SLOT => ((n + 1, o :: kept, (base + o) :: vis), mem2)
    | REMOVE_SLOT => ((n, kept, (base + o) :: vis), mem2)

/-- One chunk's processing inside `RememberedSet::Iterate` when the
callback mutates memory (state-threaded variant of `iterateChunk`). -/
def iterateChunkSt (d : PointerDirection) (c : MemoryChunk)
    (cb : Mem → Nat → SlotCallbackResult × Mem) (mem : Mem) :
    (MemoryChunk × List Nat) × Mem :=
  match GetSlotSet d c with
  | none => ((c, []), mem)
  | some sets =>
    let step := fun (acc : (List (Nat × SlotSet × List Nat)) × Mem) (p : Nat) =>
      let (res, m) := SlotSet.iterateSt (sets.getD p []) (c.address + p * kPageSize) cb acc.2
      (acc.1 ++ [res], m)
    let (results, memF) := (List.range (pagesOf c)).foldl step ([], mem)
    let newCount : Nat := (results.map (fun r => r.1)).sum
    let visited : List Nat := (results.map (fun r => r.2.2)).flatten
    if newCount = 0 then
      ((ReleaseSlotSet d c, visited), memF)
    else
      ((setSlotSet d c (some (results.map (fun r => r.2.1))), visited), memF)

/-- State-threaded `RememberedSet::Iterate`. -/
def RememberedSet.IterateSt (d : PointerDirection) (heap : List MemoryChunk)
    (cb : Mem → Nat → SlotCallbackResult × Mem) (mem : Mem) :
    (List MemoryChunk × List Nat) × Mem :=
  match heap with
  | [] => (([], []), mem)
  | c :: rest =>
    if inScope (scopeOf d) c.space then
      let ((cNew, v), mem1) := iterateChunkSt d c cb mem
      let ((restH, restV), mem2) := RememberedSet.IterateSt d rest cb mem1
      ((cNew :: restH, v ++ restV), mem2)
    else
      let ((restH, restV), mem2) := RememberedSet.IterateSt d rest cb mem
      ((c :: restH, restV), mem2)

/-- Source `RememberedSet::Wrapper(heap, slot_address, slot_callback)` (legal
only under OLD_TO_NEW): reads the pointee; if it is in from-space,
invokes the callback with the slot and pointee and keeps the slot
exactly when the value afterwards is in to-space; otherwise removes the
slot without invoking the callback. -/
def RememberedSet.Wrapper (hp : HeapPredicates)
    (slot_callback : Nat → Nat → Mem → Mem) (mem : Mem)
    (slot_address : Nat) : SlotCallbackResult × Mem :=
  let object := mem slot_address
  if hp.inFromSpace object then
    let mem1 := slot_callback slot_address object mem
    let object1 := mem1 slot_address
    if hp.inToSpace object1 then (KEEP_SLOT, mem1) else (REMOVE_SLOT, mem1)
  else
    (REMOVE_SLOT, mem)

/-- Source `RememberedSet::IterateWithWrapper(heap, callback)` for the
OLD_TO_NEW direction: `Iterate` with the filtering wrapper as callback. -/
def RememberedSet.IterateWithWrapper (hp : HeapPredicates)
    (heap : List MemoryChunk) (slot_callback : Nat → Nat → Mem → Mem)
    (mem : Mem) : (List MemoryChunk × List Nat) × Mem :=
  RememberedSet.IterateSt OLD_TO_NEW heap
    (fun m addr => RememberedSet.Wrapper hp slot_callback m addr) mem

/-- The compile-time guard of `RememberedSet::InsertTyped`
(`STATIC_ASSERT(direction == OLD_TO_OLD)`): a call only compiles when
the direction is OLD_TO_OLD. -/
def typedInsertRequirement (d : PointerDirection) : Prop := d = OLD_TO_OLD

instance (d : PointerDirection) : Decidable (typedInsertRequirement d) := by
  unfold typedInsertRequirement
  infer_instance

/-- The compile-time guard of `RememberedSet::ClearAll`
(`STATIC_ASSERT(direction == OLD_TO_OLD)`). -/
def clearAllRequirement (d : PointerDirection) : Prop := d = OLD_TO_OLD

instance (d : PointerDirection) : Decidable (clearAllRequirement d) := by
  unfold clearAllRequirement
  infer_instance

/-- Source `RememberedSet::InsertTyped(page, slot_type, slot_addr)`: statically
guarded to OLD_TO_OLD; lazily allocates the typed table and inserts the
(tag, offset) pair. -/
def RememberedSet.InsertTyped (d : PointerDirection)
    (_h : typedInsertRequirement d) (page : MemoryChunk)
    (slot_type : Nat) (slot_addr : Nat) : MemoryChunk :=
  let slots := match page.typed_old_to_old_slots with
    | none => ([] : TypedSlotSet)
    | some s => s
  let offset := slot_addr - page.address
  let newSlots := TypedSlotSet.insert slots slot_type offset
  { page with typed_old_to_old_slots := some newSlots }

/-- Source `RememberedSet::RemoveRangeTyped(page, start, end)`: no static
guard; filters the typed old-to-old table by absolute slot address,
whatever direction the instance has.  The direction argument is unused,
exactly as in the source member. -/
def RememberedSet.RemoveRangeTyped (_d : PointerDirection) (page : MemoryChunk)
    (startAddr endAddr : Nat) : MemoryChunk :=
  match page.typed_old_to_old_slots with
  | none => page
  | some slots =>
    let r := slots.iterate page.address (fun _ slot_addr =>
      if startAddr ≤ slot_addr ∧ slot_addr < endAddr then REMOVE_SLOT else KEEP_SLOT)
    { page with typed_old_to_old_slots := some r.2.1 }

/-- One chunk's processing inside `RememberedSet::IterateTyped`. -/
def iterateTypedChunk (c : MemoryChunk) (cb : Nat → Nat → SlotCallbackResult) :
    MemoryChunk × List (Nat × Nat) :=
  match c.typed_old_to_old_slots with
  | none => (c, [])
  | some slots =>
    let (newCount, kept, vis) := slots.iterate c.address cb
    if newCount = 0 then
      ({ c with typed_old_to_old_slots := none }, vis)
    else
      ({ c with typed_old_to_old_slots := some kept }, vis)

/-- Source `RememberedSet::IterateTyped(heap, callback)`: no static guard; the
direction argument is unused, exactly as in the source member.  Scans
all chunks but the map space, filtering each typed old-to-old table and
releasing it when its retained count reaches zero. -/
def RememberedSet.IterateTyped (_d : PointerDirection) (heap : List MemoryChunk)
    (cb : Nat → Nat → SlotCallbackResult) : List MemoryChunk × List (Nat × Nat) :=
  match heap with
  | [] => ([], [])
  | c :: rest =>
    let (restH, restV) := RememberedSet.IterateTyped _d rest cb
    if inScope ChunkScope.ALL_BUT_MAP_SPACE c.space then
      let (cNew, v) := iterateTypedChunk c cb
      (cNew :: restH, v ++ restV)
    else
      (c :: restH, restV)

/-- Source `RememberedSet::ClearAll(heap)`: statically guarded to OLD_TO_OLD;
releases every chunk's old-to-old and typed-old-to-old tables. -/
def RememberedSet.ClearAll (d : PointerDirection) (_h : clearAllRequirement d)
    (heap : List MemoryChunk) : List MemoryChunk :=
  heap.map (fun c =>
    { c with old_to_old_slots := none, typed_old_to_old_slots := none })

/-- Source `LocalSlotsBuffer::kBufferSize`: entries per node (`16 * KB`). -/
def kBufferSize : Nat := 16 * 1024

/-- Modelled from the spec: the size of the small sentinel range
reserved for tag markers (`NUMBER_OF_SLOT_TYPES`); entries below it are
tags, real heap addresses lie above it. -/
def NUMBER_OF_SLOT_TYPES : Nat := 7

/-- Source `LocalSlotsBuffer`: a chain of fixed-capacity nodes, newest (top)
node first.  A node's entries are kept in insertion order; `top` is the
node currently appended to. -/
structure LocalSlotsBuffer where
  top : List Nat
  rest : List (List Nat)
deriving DecidableEq, Repr

/-- The constructor `LocalSlotsBuffer() : top_(new Node(nullptr))`:
a single empty node. -/
def LocalSlotsBuffer.new : LocalSlotsBuffer := ⟨[], []⟩

/-- The whole node chain, newest node first. -/
def LocalSlotsBuffer.nodes (b : LocalSlotsBuffer) : List (List Nat) :=
  b.top :: b.rest

/-- Source `Node::remaining_free_slots()`. -/
def remaining_free_slots (node : List Nat) : Nat :=
  kBufferSize - node.length

/-- Source `LocalSlotsBuffer::EnsureSpaceFor(count)`: when the top node lacks
capacity, a fresh empty node becomes the new top, chained to the old. -/
def LocalSlotsBuffer.EnsureSpaceFor (b : LocalSlotsBuffer) (count : Nat) :
    LocalSlotsBuffer :=
  if remaining_free_slots b.top < count then ⟨[], b.top :: b.rest⟩ else b

/-- Source `LocalSlotsBuffer::Insert(entry)`: bump-append into the top node. -/
def LocalSlotsBuffer.InsertEntry (b : LocalSlotsBuffer) (entry : Nat) :
    LocalSlotsBuffer :=
  ⟨b.top ++ [entry], b.rest⟩

/-- Source `LocalSlotsBuffer::Record(addr)`: one untyped entry (precondition:
the address is at least `NUMBER_OF_SLOT_TYPES`). -/
def LocalSlotsBuffer.RecordAddr (b : LocalSlotsBuffer) (addr : Nat) :
    LocalSlotsBuffer :=
  (b.EnsureSpaceFor 1).InsertEntry addr

/-- Source `LocalSlotsBuffer::Record(type, addr)`: a tag-marker entry followed
by the address entry, with space for both ensured up front. -/
def LocalSlotsBuffer.RecordTyped (b : LocalSlotsBuffer) (type addr : Nat) :
    LocalSlotsBuffer :=
  ((b.EnsureSpaceFor 2).InsertEntry type).InsertEntry addr

/-- A callback invocation performed by `LocalSlotsBuffer::Iterate`. -/
inductive Event where
  | untyped (addr : Nat)
  | typed (type : Nat) (addr : Nat)
deriving DecidableEq, Repr

/-- The decoding loop of `LocalSlotsBuffer::Iterate` over a stream of
entries: an entry below `NUMBER_OF_SLOT_TYPES` becomes the pending tag;
any other entry is dispatched as a typed pair when a tag is pending and
as an untyped address otherwise.  The pending tag is the loop's `typed`
/ `type` state, which the source keeps across node boundaries. -/
def decodeEntries : List Nat → Option Nat → List Event
  | [], _ => []
  | entry :: restE, pending =>
    if entry < NUMBER_OF_SLOT_TYPES then
      decodeEntries restE (some entry)
    else
      match pending with
      | some t => Event.typed t entry :: decodeEntries restE none
      | none => Event.untyped entry :: decodeEntries restE none

/-- Source `LocalSlotsBuffer::Iterate(untyped_callback, typed_callback)`: the
sequence of callback invocations, walking the node chain from the top
node onward and decoding the interleaved entry stream. -/
def LocalSlotsBuffer.Iterate (b : LocalSlotsBuffer) : List Event :=
  decodeEntries b.nodes.flatten none

/-- A recording request: either `Record(addr)` or `Record(type, addr)`. -/
inductive Op where
  | untypedOp (addr : Nat)
  | typedOp (type : Nat) (addr : Nat)
deriving DecidableEq, Repr

/-- The callback invocation a recording request should produce. -/
def opEvent : Op → Event
  | Op.untypedOp a => Event.untyped a
  | Op.typedOp t a => Event.typed t a

/-- Preconditions of a recording request: addresses lie above the
sentinel range, tags inside it. -/
def opWF : Op → Prop
  | Op.untypedOp a => NUMBER_OF_SLOT_TYPES ≤ a
  | Op.typedOp t a => t < NUMBER_OF_SLOT_TYPES ∧ NUMBER_OF_SLOT_TYPES ≤ a

instance (op : Op) : Decidable (opWF op) := by
  cases op <;> simp only [opWF] <;> infer_instance

/-- Perform one recording request. -/
def record1 (b : LocalSlotsBuffer) : Op → LocalSlotsBuffer
  | Op.untypedOp a => b.RecordAddr a
  | Op.typedOp t a => b.RecordTyped t a

/-- Perform a sequence of recording requests, oldest first. -/
def recordOps (b : LocalSlotsBuffer) (ops : List Op) : LocalSlotsBuffer :=
  ops.foldl record1 b

/-- Record a list of untyped addresses, oldest first. -/
def recordAddrs (b : LocalSlotsBuffer) (addrs : List Nat) : LocalSlotsBuffer :=
  addrs.foldl LocalSlotsBuffer.RecordAddr b

/-- A well-formed entry list: a concatenation of blocks, each either a
single address or a tag immediately followed by an address, paired with
the events its decoding must produce. -/
inductive Blocks : List Nat → List Event → Prop where
  | nil : Blocks [] []
  | untyped {a : Nat} {l : List Nat} {es : List Event} :
      NUMBER_OF_SLOT_TYPES ≤ a → Blocks l es →
      Blocks (a :: l) (Event.untyped a :: es)
  | typed {t a : Nat} {l : List Nat} {es : List Event} :
      t < NUMBER_OF_SLOT_TYPES → NUMBER_OF_SLOT_TYPES ≤ a → Blocks l es →
      Blocks (t :: a :: l) (Event.typed t a :: es)

/-- The buffer invariant: every node of the chain is a well-formed
block list, with `ess` the per-node event lists. -/
def BufWF (b : LocalSlotsBuffer) (ess : List (List Event)) : Prop :=
  List.Forall₂ Blocks b.nodes ess

/-- No two adjacent entries of a node are both tag markers. -/
def noConsecTags (l : List Nat) : Prop :=
  List.Chain'
    (fun x y => ¬ (x < NUMBER_OF_SLOT_TYPES ∧ y < NUMBER_OF_SLOT_TYPES)) l

/-- Boolean check that every offset stored in an (optional) untyped
table lies inside its fixed-size unit, as the external slot-set
container guarantees. -/
def boundedSetsB : Option (List SlotSet) → Bool
  | none => true
  | some sets => sets.all (fun s => s.all (fun o => o < kPageSize))

/-- Sample region with old-to-new offsets 10, 50 and 200 recorded. -/
def sampleChunkOTN : MemoryChunk :=
  { address := 0, size := kPageSize, space := Space.oldSpace,
    old_to_old_slots := none, old_to_new_slots := some [[10, 50, 200]],
    typed_old_to_old_slots := none }

/-- Sample region with no table allocated. -/
def sampleChunkBare : MemoryChunk :=
  { address := 0, size := kPageSize, space := Space.oldSpace,
    old_to_old_slots := none, old_to_new_slots := none,
    typed_old_to_old_slots := none }

/-- Sample region holding one typed old-to-old slot (tag 3, offset 100). -/
def sampleChunkTyped : MemoryChunk :=
  { address := 0, size := kPageSize, space := Space.oldSpace,
    old_to_old_slots := none, old_to_new_slots := none,
    typed_old_to_old_slots := some [(3, 100)] }

/-- Sample region holding both an old-to-old offset and a typed slot. -/
def sampleChunkFull : MemoryChunk :=
  { address := 0, size := kPageSize, space := Space.oldSpace,
    old_to_old_slots := some [[42]], old_to_new_slots := none,
    typed_old_to_old_slots := some [(3, 100)] }

/-- Sample heap membership predicates: value 5 is the from-space
object, value 9 the to-space object. -/
def sampleHp : HeapPredicates :=
  { inFromSpace := fun v => v == 5, inToSpace := fun v => v == 9,
    inNewSpace := fun v => v == 5 || v == 9 }

/-- Sample memory: every slot holds the from-space object 5. -/
def sampleMem : Mem := fun _ => 5

/-- Sample relocation callback: overwrites the slot with the to-space
object 9. -/
def sampleRelocate : Nat → Nat → Mem → Mem :=
  fun slot _ m => fun x => if x = slot then 9 else m x

section Lemmas

theorem getSlotSet_setSlotSet (d : PointerDirection) (c : MemoryChunk)
    (v : Option (List SlotSet)) : GetSlotSet d (setSlotSet d c v) = v := by
  cases d <;> rfl

theorem setSlotSet_address (d : PointerDirection) (c : MemoryChunk)
    (v : Option (List SlotSet)) : (setSlotSet d c v).address = c.address := by
  cases d <;> rfl

theorem setSlotSet_size (d : PointerDirection) (c : MemoryChunk)
    (v : Option (List SlotSet)) : (setSlotSet d c v).size = c.size := by
  cases d <;> rfl

theorem pagesOf_setSlotSet (d : PointerDirection) (c : MemoryChunk)
    (v : Option (List SlotSet)) : pagesOf (setSlotSet d c v) = pagesOf c := by
  unfold pagesOf
  rw [setSlotSet_size]

theorem slotSet_iterate_visited (s : SlotSet) (base : Nat)
    (cb : Nat → SlotCallbackResult) :
    (SlotSet.iterate s base cb).2.2 = s.map (fun o => base + o) := by
  induction s with
  | nil => rfl
  | cons o rest ih =>
    rcases hrec : SlotSet.iterate rest base cb with ⟨n, kept, vis⟩
    rw [hrec] at ih
    simp only [SlotSet.iterate, hrec]
    cases cb (base + o) <;> simpa using ih

theorem iterateChunk_visited (d : PointerDirection) (c : MemoryChunk)
    (cb : Nat → SlotCallbackResult) :
    (iterateChunk d c cb).2 = chunkRecordedAddresses d c := by
  unfold iterateChunk chunkRecordedAddresses
  cases h : GetSlotSet d c with
  | none => rfl
  | some sets =>
    simp only [List.map_map]
    split <;> simp [Function.comp_def, slotSet_iterate_visited]

theorem iterate_visited (d : PointerDirection) (heap : List MemoryChunk)
    (cb : Nat → SlotCallbackResult) :
    (RememberedSet.Iterate d heap cb).2
      = ((heap.filter (fun c => inScope (scopeOf d) c.space)).map
          (chunkRecordedAddresses d)).flatten := by
  induction heap with
  | nil => rfl
  | cons c rest ih =>
    rcases hrec : RememberedSet.Iterate d rest cb with ⟨restH, restV⟩
    rw [hrec] at ih
    by_cases hs : inScope (scopeOf d) c.space
    · rcases hc : iterateChunk d c cb with ⟨cNew, v⟩
      have hv : v = chunkRecordedAddresses d c := by
        have := iterateChunk_visited d c cb
        rw [hc] at this
        exact this
      simp [RememberedSet.Iterate, hrec, hc, hs, List.filter_cons, hv, ih]
    · simp [RememberedSet.Iterate, hrec, hs, List.filter_cons, ih]

theorem iterateChunk_release_iff (d : PointerDirection) (c : MemoryChunk)
    (cb : Nat → SlotCallbackResult) (h : (GetSlotSet d c).isSome = true) :
    (GetSlotSet d (iterateChunk d c cb).1 = none ↔ retainedCount d c cb = 0) := by
  obtain ⟨sets, hs⟩ := Option.isSome_iff_exists.mp h
  unfold iterateChunk retainedCount
  rw [hs]
  simp only [List.map_map, Function.comp_def]
  split_ifs with h0
  · simp only [ReleaseSlotSet, getSlotSet_setSlotSet]
    simpa using h0
  · simp only [getSlotSet_setSlotSet]
    constructor
    · intro hfalse
      exact absurd hfalse (by simp)
    · intro hzero
      exact absurd hzero h0

theorem iterateChunk_no_table (d : PointerDirection) (c : MemoryChunk)
    (cb : Nat → SlotCallbackResult) (h : GetSlotSet d c = none) :
    iterateChunk d c cb = (c, []) := by
  unfold iterateChunk
  rw [h]

theorem decode_append {l : List Nat} {es : List Event} (h : Blocks l es)
    (l2 : List Nat) :
    decodeEntries (l ++ l2) none = es ++ decodeEntries l2 none := by
  induction h with
  | nil => rfl
  | @untyped a l es ha _ ih =>
    simp only [List.cons_append, decodeEntries]
    rw [if_neg (by omega)]
    simp [ih]
  | @typed t a l es ht ha _ ih =>
    simp only [List.cons_append, decodeEntries]
    rw [if_pos ht]
    rw [if_neg (by omega)]
    simp [ih]

theorem decode_of_blocks {l : List Nat} {es : List Event} (h : Blocks l es) :
    decodeEntries l none = es := by
  have h2 := decode_append h []
  simpa [decodeEntries] using h2

theorem decode_flatten {ns : List (List Nat)} {ess : List (List Event)}
    (h : List.Forall₂ Blocks ns ess) :
    decodeEntries ns.flatten none = ess.flatten := by
  induction h with
  | nil => rfl
  | cons hb _ ih => simp [decode_append hb, ih]

theorem forall₂_decode_eq {ns : List (List Nat)} {ess : List (List Event)}
    (h : List.Forall₂ Blocks ns ess) :
    ns.map (fun n => decodeEntries n none) = ess := by
  induction h with
  | nil => rfl
  | cons hb _ ih => simp [decode_of_blocks hb, ih]

theorem forall₂_mem_left {α β : Type} {R : α → β → Prop} {l1 : List α}
    {l2 : List β} (h : List.Forall₂ R l1 l2) {a : α} (ha : a ∈ l1) :
    ∃ b, b ∈ l2 ∧ R a b := by
  induction h with
  | nil => simp at ha
  | @cons x y l1t l2t hr _ ih =>
    rcases List.mem_cons.mp ha with rfl | ha2
    · exact ⟨y, List.mem_cons_self y l2t, hr⟩
    · obtain ⟨b, hb, hrb⟩ := ih ha2
      exact ⟨b, List.mem_cons_of_mem y hb, hrb⟩

theorem blocks_append_untyped {l : List Nat} {es : List Event}
    (h : Blocks l es) {a : Nat} (ha : NUMBER_OF_SLOT_TYPES ≤ a) :
    Blocks (l ++ [a]) (es ++ [Event.untyped a]) := by
  induction h with
  | nil => exact Blocks.untyped ha Blocks.nil
  | untyped ha2 _ ih => exact Blocks.untyped ha2 ih
  | typed ht ha2 _ ih => exact Blocks.typed ht ha2 ih

theorem blocks_append_typed {l : List Nat} {es : List Event}
    (h : Blocks l es) {t a : Nat} (ht : t < NUMBER_OF_SLOT_TYPES)
    (ha : NUMBER_OF_SLOT_TYPES ≤ a) :
    Blocks (l ++ [t, a]) (es ++ [Event.typed t a]) := by
  induction h with
  | nil => exact Blocks.typed ht ha Blocks.nil
  | untyped ha2 _ ih => exact Blocks.untyped ha2 ih
  | typed ht2 ha2 _ ih => exact Blocks.typed ht2 ha2 ih

theorem blocks_getLast {l : List Nat} {es : List Event} (h : Blocks l es) :
    ∀ e, l.getLast? = some e → NUMBER_OF_SLOT_TYPES ≤ e := by
  induction h with
  | nil => intro e he; simp at he
  | @untyped a l es ha _ ih =>
    intro e he
    cases l with
    | nil =>
      simp at he
      omega
    | cons b l2 =>
      rw [List.getLast?_cons_cons] at he
      exact ih e he
  | @typed t a l es ht ha _ ih =>
    intro e he
    cases l with
    | nil =>
      simp at he
      omega
    | cons b l2 =>
      rw [List.getLast?_cons_cons, List.getLast?_cons_cons] at he
      exact ih e he

theorem blocks_noConsecTags {l : List Nat} {es : List Event}
    (h : Blocks l es) : noConsecTags l := by
  induction h with
  | nil => exact List.chain'_nil
  | @untyped a l es ha _ ih =>
    refine List.chain'_cons'.mpr ⟨?_, ih⟩
    intro b _
    omega
  | @typed t a l es ht ha _ ih =>
    refine List.chain'_cons'.mpr ⟨?_, List.chain'_cons'.mpr ⟨?_, ih⟩⟩
    · intro b hb2
      simp at hb2
      omega
    · intro b _
      omega

theorem bufWF_new : BufWF LocalSlotsBuffer.new [[]] :=
  List.Forall₂.cons Blocks.nil List.Forall₂.nil

theorem bufWF_record1 {b : LocalSlotsBuffer} {ess : List (List Event)}
    (h : BufWF b ess) {op : Op} (hop : opWF op) :
    ∃ ess2, BufWF (record1 b op) ess2 ∧
      ess2.flatten.Perm (opEvent op :: ess.flatten) := by
  rcases b with ⟨top, rest⟩
  cases h with
  | cons hb ht =>
    rename_i etop erest
    cases op with
    | untypedOp a =>
      have ha : NUMBER_OF_SLOT_TYPES ≤ a := hop
      simp only [record1, LocalSlotsBuffer.RecordAddr, LocalSlotsBuffer.EnsureSpaceFor,
        LocalSlotsBuffer.InsertEntry]
      by_cases hsp : remaining_free_slots top < 1
      · rw [if_pos hsp]
        refine ⟨[Event.untyped a] :: etop :: erest, ?_, ?_⟩
        · exact List.Forall₂.cons (Blocks.untyped ha Blocks.nil) (List.Forall₂.cons hb ht)
        · simp [opEvent]
      · rw [if_neg hsp]
        refine ⟨(etop ++ [Event.untyped a]) :: erest, ?_, ?_⟩
        · exact List.Forall₂.cons (blocks_append_untyped hb ha) ht
        · simp only [List.flatten_cons, List.append_assoc, List.singleton_append]
          exact List.perm_middle
    | typedOp t a =>
      have ht2 : t < NUMBER_OF_SLOT_TYPES := hop.1
      have ha : NUMBER_OF_SLOT_TYPES ≤ a := hop.2
      simp only [record1, LocalSlotsBuffer.RecordTyped, LocalSlotsBuffer.EnsureSpaceFor,
        LocalSlotsBuffer.InsertEntry]
      by_cases hsp : remaining_free_slots top < 2
      · rw [if_pos hsp]
        refine ⟨[Event.typed t a] :: etop :: erest, ?_, ?_⟩
        · exact List.Forall₂.cons (Blocks.typed ht2 ha Blocks.nil) (List.Forall₂.cons hb ht)
        · simp [opEvent]
      · rw [if_neg hsp]
        refine ⟨(etop ++ [Event.typed t a]) :: erest, ?_, ?_⟩
        · have hblk := blocks_append_typed hb ht2 ha
          exact List.Forall₂.cons (by simpa using hblk) ht
        · simp only [List.flatten_cons, List.append_assoc, List.singleton_append]
          exact List.perm_middle

theorem bufWF_recordOps {b : LocalSlotsBuffer} {ess : List (List Event)}
    (h : BufWF b ess) {ops : List Op} (hops : ∀ op ∈ ops, opWF op) :
    ∃ ess2, BufWF (recordOps b ops) ess2 ∧
      ess2.flatten.Perm (ops.map opEvent ++ ess.flatten) := by
  induction ops generalizing b ess with
  | nil => exact ⟨ess, h, by simp⟩
  | cons op ops ih =>
    have hop := hops op (List.mem_cons_self op ops)
    obtain ⟨ess1, h1, hp1⟩ := bufWF_record1 h hop
    obtain ⟨ess2, h2, hp2⟩ := ih h1 (fun o ho => hops o (List.mem_cons_of_mem op ho))
    refine ⟨ess2, h2, ?_⟩
    have step1 : ess2.flatten.Perm (ops.map opEvent ++ (opEvent op :: ess.flatten)) :=
      hp2.trans (List.Perm.append_left _ hp1)
    have step2 := step1.trans List.perm_middle
    simpa using step2

theorem getD_set_self {l : List SlotSet} {n : Nat} (h : n < l.length)
    (x : SlotSet) : (l.set n x).getD n [] = x := by
  simp [List.getD_eq_getElem?_getD, List.getElem?_set_self h]

theorem getD_set_ne {l : List SlotSet} {n p : Nat} (h : n ≠ p) (x : SlotSet) :
    (l.set n x).getD p [] = l.getD p [] := by
  simp [List.getD_eq_getElem?_getD, List.getElem?_set_ne h]

theorem getD_oob {l : List SlotSet} {n : Nat} (h : l.length ≤ n) :
    l.getD n [] = [] := by
  simp [List.getD_eq_getElem?_getD, List.getElem?_eq_none h]

theorem mem_getD_mem {sets : List SlotSet} {p o : Nat}
    (h : o ∈ sets.getD p []) : ∃ s, s ∈ sets ∧ o ∈ s := by
  by_cases hp : p < sets.length
  · refine ⟨sets.get ⟨p, hp⟩, List.get_mem sets p hp, ?_⟩
    rw [List.getD_eq_getElem?_getD, List.getElem?_eq_getElem hp] at h
    simpa using h
  · rw [getD_oob (Nat.le_of_not_lt hp)] at h
    simp at h

theorem mem_slotSet_insert {s : SlotSet} {o x : Nat}
    (h : x ∈ SlotSet.insert s o) : x ∈ s ∨ x = o := by
  unfold SlotSet.insert at h
  split_ifs at h with hmem
  · exact Or.inl h
  · rcases List.mem_append.mp h with h2 | h2
    · exact Or.inl h2
    · simp at h2
      exact Or.inr h2

theorem not_mem_slotSet_remove (s : SlotSet) (o : Nat) :
    o ∉ SlotSet.remove s o := by
  unfold SlotSet.remove
  simp

theorem mem_slotSet_remove_sub {s : SlotSet} {o x : Nat}
    (h : x ∈ SlotSet.remove s o) : x ∈ s := by
  unfold SlotSet.remove at h
  exact (List.mem_filter.mp h).1

theorem mem_chunkRecordedAddresses {d : PointerDirection} {c : MemoryChunk}
    {sets : List SlotSet} (h : GetSlotSet d c = some sets) (addr : Nat) :
    addr ∈ chunkRecordedAddresses d c ↔
      ∃ p, p < pagesOf c ∧ ∃ o, o ∈ sets.getD p [] ∧
        addr = c.address + p * kPageSize + o := by
  unfold chunkRecordedAddresses
  rw [h]
  simp only [List.mem_flatten, List.mem_map, List.mem_range]
  constructor
  · rintro ⟨l, ⟨p, hp, rfl⟩, hmem⟩
    obtain ⟨o, ho, rfl⟩ := List.mem_map.mp hmem
    exact ⟨p, hp, o, ho, rfl⟩
  · rintro ⟨p, hp, o, ho, rfl⟩
    exact ⟨(sets.getD p []).map (fun o => c.address + p * kPageSize + o),
      ⟨p, hp, rfl⟩, List.mem_map_of_mem _ ho⟩

theorem bounded_of_boundedSetsB {sets : List SlotSet}
    (h : boundedSetsB (some sets) = true) :
    ∀ p o, o ∈ sets.getD p [] → o < kPageSize := by
  intro p o ho
  obtain ⟨s, hs, hos⟩ := mem_getD_mem ho
  simp only [boundedSetsB, List.all_eq_true, decide_eq_true_eq] at h
  exact h s hs o hos

theorem bounded_allocate (c : MemoryChunk) :
    ∀ p o, o ∈ (AllocateSlotSet c).getD p [] → o < kPageSize := by
  intro p o ho
  obtain ⟨s, hs, hos⟩ := mem_getD_mem ho
  rw [List.eq_of_mem_replicate hs] at hos
  simp at hos

theorem iterate_nil_of_no_tables (d : PointerDirection)
    (heap : List MemoryChunk) (cb : Nat → SlotCallbackResult)
    (hall : ∀ c ∈ heap, GetSlotSet d c = none) :
    (RememberedSet.Iterate d heap cb).2 = [] := by
  induction heap with
  | nil => rfl
  | cons c rest ih =>
    rcases hrec : RememberedSet.Iterate d rest cb with ⟨rh, rv⟩
    have hv : rv = [] := by
      have h2 := ih (fun x hx => hall x (List.mem_cons_of_mem c hx))
      rw [hrec] at h2
      exact h2
    have hc := iterateChunk_no_table d c cb (hall c (List.mem_cons_self c rest))
    by_cases hs : inScope (scopeOf d) c.space <;>
      simp [RememberedSet.Iterate, hrec, hc, hs, hv]

theorem iterateTyped_nil_of_no_tables (d : PointerDirection)
    (heap : List MemoryChunk) (tcb : Nat → Nat → SlotCallbackResult)
    (hall : ∀ c ∈ heap, c.typed_old_to_old_slots = none) :
    (RememberedSet.IterateTyped d heap tcb).2 = [] := by
  induction heap with
  | nil => rfl
  | cons c rest ih =>
    rcases hrec : RememberedSet.IterateTyped d rest tcb with ⟨rh, rv⟩
    have hv : rv = [] := by
      have h2 := ih (fun x hx => hall x (List.mem_cons_of_mem c hx))
      rw [hrec] at h2
      exact h2
    have hc : iterateTypedChunk c tcb = (c, []) := by
      unfold iterateTypedChunk
      rw [hall c (List.mem_cons_self c rest)]
    by_cases hs : inScope ChunkScope.ALL_BUT_MAP_SPACE c.space <;>
      simp [RememberedSet.IterateTyped, hrec, hc, hs, hv]

theorem page_split_unique {off p o : Nat} (ho : o < kPageSize)
    (h : off = p * kPageSize + o) :
    off / kPageSize = p ∧ off % kPageSize = o := by
  subst h
  rw [Nat.mul_comm p kPageSize]
  constructor
  · rw [Nat.mul_add_div (by decide), Nat.div_eq_of_lt ho]
    exact Nat.add_zero p
  · rw [Nat.mul_add_mod, Nat.mod_eq_of_lt ho]

theorem bounded_set_insert {sets0 : List SlotSet} {i r : Nat}
    (hbound0 : ∀ p o, o ∈ sets0.getD p [] → o < kPageSize)
    (hr : r < kPageSize) :
    ∀ p o, o ∈ (sets0.set i (SlotSet.insert (sets0.getD i []) r)).getD p [] →
      o < kPageSize := by
  intro p o ho
  by_cases hpi : p = i
  · subst hpi
    by_cases hlen : p < sets0.length
    · rw [getD_set_self hlen] at ho
      rcases mem_slotSet_insert ho with h | h
      · exact hbound0 p o h
      · omega
    · rw [List.set_eq_of_length_le (Nat.le_of_not_lt hlen)] at ho
      exact hbound0 p o ho
  · rw [getD_set_ne (fun hh => hpi hh.symm)] at ho
    exact hbound0 p o ho

theorem remove_not_visited (d : PointerDirection) (cI : MemoryChunk)
    (a : Nat) (cb : Nat → SlotCallbackResult) (sets1 : List SlotSet)
    (hget : GetSlotSet d cI = some sets1) (h1 : cI.address ≤ a)
    (hbound1 : ∀ p o, o ∈ sets1.getD p [] → o < kPageSize) :
    a ∉ (iterateChunk d (RememberedSet.Remove d cI a) cb).2 := by
  have hrm : RememberedSet.Remove d cI a = setSlotSet d cI (some
      (sets1.set ((a - cI.address) / kPageSize)
        (SlotSet.remove (sets1.getD ((a - cI.address) / kPageSize) [])
          ((a - cI.address) % kPageSize)))) := by
    simp only [RememberedSet.Remove, hget]
  rw [hrm, iterateChunk_visited]
  have hget2 := getSlotSet_setSlotSet d cI (some
      (sets1.set ((a - cI.address) / kPageSize)
        (SlotSet.remove (sets1.getD ((a - cI.address) / kPageSize) [])
          ((a - cI.address) % kPageSize))))
  intro hmem
  rw [mem_chunkRecordedAddresses hget2 a] at hmem
  obtain ⟨p, hp, o, ho, heq⟩ := hmem
  rw [setSlotSet_address] at heq
  have hbo : o < kPageSize := by
    by_cases hpi : p = (a - cI.address) / kPageSize
    · rw [hpi] at ho
      by_cases hlen : (a - cI.address) / kPageSize < sets1.length
      · rw [getD_set_self hlen] at ho
        exact hbound1 _ o (mem_slotSet_remove_sub ho)
      · rw [List.set_eq_of_length_le (Nat.le_of_not_lt hlen)] at ho
        exact hbound1 _ o ho
    · rw [getD_set_ne (fun hh => hpi hh.symm)] at ho
      exact hbound1 p o ho
  have hd : a - cI.address = p * kPageSize + o := by omega
  obtain ⟨hpeq, hoeq⟩ := page_split_unique hbo hd
  rw [hpeq] at ho
  rw [hoeq] at ho
  by_cases hlen : p < sets1.length
  · rw [getD_set_self hlen] at ho
    exact not_mem_slotSet_remove _ _ ho
  · rw [List.set_eq_of_length_le (Nat.le_of_not_lt hlen)] at ho
    rw [getD_oob (Nat.le_of_not_lt hlen)] at ho
    simp at ho

theorem iterateTyped_direction_blind (d1 d2 : PointerDirection)
    (heap : List MemoryChunk) (tcb : Nat → Nat → SlotCallbackResult) :
    RememberedSet.IterateTyped d1 heap tcb
      = RememberedSet.IterateTyped d2 heap tcb := by
  induction heap with
  | nil => rfl
  | cons c rest ih => simp [RememberedSet.IterateTyped, ih]

end Lemmas

section Claims

/-- C3: recording N untyped addresses into a fresh Slot Recording Buffer
and then iterating invokes the untyped callback exactly N times, and the
multiset of delivered addresses equals the multiset of recorded
addresses (order unconstrained), including when the entries span
multiple chained nodes. -/
theorem C3_untyped_record_iterate (addrs : List Nat)
    (h : ∀ a ∈ addrs, NUMBER_OF_SLOT_TYPES ≤ a) :
    (recordAddrs LocalSlotsBuffer.new addrs).Iterate.length = addrs.length ∧
    (recordAddrs LocalSlotsBuffer.new addrs).Iterate.Perm
      (addrs.map Event.untyped) := by
  have hrec : recordAddrs LocalSlotsBuffer.new addrs
      = recordOps LocalSlotsBuffer.new (addrs.map Op.untypedOp) := by
    unfold recordAddrs recordOps
    rw [List.foldl_map]
    rfl
  have hops : ∀ op ∈ addrs.map Op.untypedOp, opWF op := by
    intro op hop
    obtain ⟨a, ha, rfl⟩ := List.mem_map.mp hop
    exact h a ha
  obtain ⟨ess2, hwf, hperm⟩ := bufWF_recordOps bufWF_new hops
  have hiter : (recordOps LocalSlotsBuffer.new (addrs.map Op.untypedOp)).Iterate
      = ess2.flatten := decode_flatten hwf
  have hmap : (addrs.map Op.untypedOp).map opEvent = addrs.map Event.untyped := by
    rw [List.map_map]
    rfl
  have hp2 : (recordAddrs LocalSlotsBuffer.new addrs).Iterate.Perm
      (addrs.map Event.untyped) := by
    rw [hrec, hiter]
    rw [hmap] at hperm
    simpa using hperm
  exact ⟨by simpa using hp2.length_eq, hp2⟩

/-- Witness for C3 at the concrete input [100, 7, 42]. -/
theorem C3_untyped_record_iterate_witness :
    (recordAddrs LocalSlotsBuffer.new [100, 7, 42]).Iterate.length
        = [100, 7, 42].length ∧
    (recordAddrs LocalSlotsBuffer.new [100, 7, 42]).Iterate.Perm
      ([100, 7, 42].map Event.untyped) :=
  C3_untyped_record_iterate [100, 7, 42] (by decide)

/-- C4: a typed record appends the tag marker and the address as an
adjacent pair at the end of the top node; after any interleaved sequence
of records, no node holds two consecutive tag markers, and iteration
dispatches exactly one typed callback per recorded pair with matching
values (and one untyped callback per untyped record), never a tag
without its address. -/
theorem C4_typed_pair_stream (ops : List Op) (h : ∀ op ∈ ops, opWF op) :
    (∀ b : LocalSlotsBuffer, ∀ t a : Nat,
        (b.RecordTyped t a).top = (b.EnsureSpaceFor 2).top ++ [t, a]) ∧
    (∀ node ∈ (recordOps LocalSlotsBuffer.new ops).nodes, noConsecTags node) ∧
    (recordOps LocalSlotsBuffer.new ops).Iterate.Perm (ops.map opEvent) := by
  obtain ⟨ess2, hwf, hperm⟩ := bufWF_recordOps bufWF_new h
  refine ⟨?_, ?_, ?_⟩
  · intro b t a
    simp [LocalSlotsBuffer.RecordTyped, LocalSlotsBuffer.InsertEntry]
  · intro node hn
    obtain ⟨es, _, hb⟩ := forall₂_mem_left hwf hn
    exact blocks_noConsecTags hb
  · have hiter : (recordOps LocalSlotsBuffer.new ops).Iterate
        = ess2.flatten := decode_flatten hwf
    rw [hiter]
    simpa using hperm

/-- Witness for C4 at a concrete interleaved sequence. -/
theorem C4_typed_pair_stream_witness :
    (∀ b : LocalSlotsBuffer, ∀ t a : Nat,
        (b.RecordTyped t a).top = (b.EnsureSpaceFor 2).top ++ [t, a]) ∧
    (∀ node ∈ (recordOps LocalSlotsBuffer.new
        [Op.untypedOp 50, Op.typedOp 2 99, Op.untypedOp 7]).nodes,
      noConsecTags node) ∧
    (recordOps LocalSlotsBuffer.new
        [Op.untypedOp 50, Op.typedOp 2 99, Op.untypedOp 7]).Iterate.Perm
      ([Op.untypedOp 50, Op.typedOp 2 99, Op.untypedOp 7].map opEvent) :=
  C4_typed_pair_stream [Op.untypedOp 50, Op.typedOp 2 99, Op.untypedOp 7]
    (by decide)

/-- C9: after any sequence of records, no node ends in a tag marker (the
space for a typed pair is ensured in the head node before either entry
is inserted), so iteration decodes each node independently: the pending
tag state never carries an address over from a different node. -/
theorem C9_pair_within_node (ops : List Op) (h : ∀ op ∈ ops, opWF op) :
    (∀ node ∈ (recordOps LocalSlotsBuffer.new ops).nodes,
        ∀ e, node.getLast? = some e → NUMBER_OF_SLOT_TYPES ≤ e) ∧
    (recordOps LocalSlotsBuffer.new ops).Iterate
      = ((recordOps LocalSlotsBuffer.new ops).nodes.map
          (fun node => decodeEntries node none)).flatten := by
  obtain ⟨ess2, hwf, _⟩ := bufWF_recordOps bufWF_new h
  constructor
  · intro node hn e he
    obtain ⟨es, _, hb⟩ := forall₂_mem_left hwf hn
    exact blocks_getLast hb e he
  · have hiter : (recordOps LocalSlotsBuffer.new ops).Iterate
        = ess2.flatten := decode_flatten hwf
    rw [hiter, forall₂_decode_eq hwf]

/-- Witness for C9 at a concrete sequence ending in a typed pair. -/
theorem C9_pair_within_node_witness :
    (∀ node ∈ (recordOps LocalSlotsBuffer.new
        [Op.typedOp 1 88, Op.untypedOp 9]).nodes,
      ∀ e, node.getLast? = some e → NUMBER_OF_SLOT_TYPES ≤ e) ∧
    (recordOps LocalSlotsBuffer.new [Op.typedOp 1 88, Op.untypedOp 9]).Iterate
      = ((recordOps LocalSlotsBuffer.new
            [Op.typedOp 1 88, Op.untypedOp 9]).nodes.map
          (fun node => decodeEntries node none)).flatten :=
  C9_pair_within_node [Op.typedOp 1 88, Op.untypedOp 9] (by decide)

/-- C10: iterating a freshly constructed Slot Recording Buffer invokes
neither callback: the constructor allocates a single empty node. -/
theorem C10_fresh_buffer_iterate_empty : LocalSlotsBuffer.new.Iterate = [] :=
  rfl

/-- C1: IterateWithWrapper is Iterate with the per-slot wrapper, and the
wrapper treats each visited slot as the claim states: a slot whose
pointee is in from-space has the callback invoked with the slot and
pointee and is kept exactly when it afterwards points into to-space; a
slot whose pointee is not in from-space is removed with the callback
never invoked (the memory is untouched). -/
theorem C1_wrapper_treatment (hp : HeapPredicates) (heap : List MemoryChunk)
    (slot_callback : Nat → Nat → Mem → Mem) (mem : Mem) (addr : Nat) :
    RememberedSet.IterateWithWrapper hp heap slot_callback mem
      = RememberedSet.IterateSt OLD_TO_NEW heap
          (fun m a => RememberedSet.Wrapper hp slot_callback m a) mem ∧
    (hp.inFromSpace (mem addr) = true →
      RememberedSet.Wrapper hp slot_callback mem addr
        = ((if hp.inToSpace (slot_callback addr (mem addr) mem addr) = true
              then KEEP_SLOT else REMOVE_SLOT),
           slot_callback addr (mem addr) mem)) ∧
    (hp.inFromSpace (mem addr) = false →
      RememberedSet.Wrapper hp slot_callback mem addr = (REMOVE_SLOT, mem)) := by
  refine ⟨rfl, ?_, ?_⟩
  · intro hfrom
    simp only [RememberedSet.Wrapper, hfrom, if_true]
    by_cases hto : hp.inToSpace (slot_callback addr (mem addr) mem addr) = true
    · simp [hto]
    · simp only [Bool.not_eq_true] at hto
      simp [hto]
  · intro hfrom
    simp [RememberedSet.Wrapper, hfrom]

/-- Witness for C1 with a from-space pointee that the sample callback
evacuates into to-space, and with a pointee outside from-space. -/
theorem C1_wrapper_treatment_witness :
    (sampleHp.inFromSpace (sampleMem 0) = true ∧
      RememberedSet.Wrapper sampleHp sampleRelocate sampleMem 0
        = ((if sampleHp.inToSpace (sampleRelocate 0 (sampleMem 0) sampleMem 0)
                = true
              then KEEP_SLOT else REMOVE_SLOT),
           sampleRelocate 0 (sampleMem 0) sampleMem)) ∧
    (sampleHp.inFromSpace (sampleRelocate 0 5 sampleMem 0) = false ∧
      RememberedSet.Wrapper sampleHp sampleRelocate
          (sampleRelocate 0 5 sampleMem) 0
        = (REMOVE_SLOT, sampleRelocate 0 5 sampleMem)) :=
  ⟨⟨by decide,
    (C1_wrapper_treatment sampleHp [] sampleRelocate sampleMem 0).2.1
      (by decide)⟩,
   ⟨by decide,
    (C1_wrapper_treatment sampleHp [] sampleRelocate
        (sampleRelocate 0 5 sampleMem) 0).2.2 (by decide)⟩⟩

/-- C2: a scan applies the callback to every recorded slot of every
in-scope region that has a table, across all fixed-size sub-units; a
region's table is released by the scan exactly when the accumulated
retained count is zero; and a scan of a region without a table visits
no slots and allocates nothing (the region is returned unchanged). -/
theorem C2_iterate_contract (d : PointerDirection) (heap : List MemoryChunk)
    (cb : Nat → SlotCallbackResult) :
    (RememberedSet.Iterate d heap cb).2
      = ((heap.filter (fun c => inScope (scopeOf d) c.space)).map
          (chunkRecordedAddresses d)).flatten ∧
    (∀ c : MemoryChunk, (GetSlotSet d c).isSome = true →
      (GetSlotSet d (iterateChunk d c cb).1 = none
        ↔ retainedCount d c cb = 0)) ∧
    (∀ c : MemoryChunk, GetSlotSet d c = none →
      iterateChunk d c cb = (c, [])) :=
  ⟨iterate_visited d heap cb,
   fun c hc => iterateChunk_release_iff d c cb hc,
   fun c hc => iterateChunk_no_table d c cb hc⟩

/-- Witness for C2: an always-remove scan of a region with offsets
releases its table, and a region without a table is scanned to nothing. -/
theorem C2_iterate_contract_witness :
    ((GetSlotSet OLD_TO_NEW sampleChunkOTN).isSome = true ∧
      (GetSlotSet OLD_TO_NEW
          (iterateChunk OLD_TO_NEW sampleChunkOTN (fun _ => REMOVE_SLOT)).1
            = none
        ↔ retainedCount OLD_TO_NEW sampleChunkOTN (fun _ => REMOVE_SLOT)
            = 0)) ∧
    (GetSlotSet OLD_TO_NEW sampleChunkBare = none ∧
      iterateChunk OLD_TO_NEW sampleChunkBare (fun _ => REMOVE_SLOT)
        = (sampleChunkBare, [])) :=
  ⟨⟨by decide,
    (C2_iterate_contract OLD_TO_NEW [] (fun _ => REMOVE_SLOT)).2.1
      sampleChunkOTN (by decide)⟩,
   ⟨by decide,
    (C2_iterate_contract OLD_TO_NEW [] (fun _ => REMOVE_SLOT)).2.2
      sampleChunkBare (by decide)⟩⟩

/-- C8: ClearAll on the Old-to-Old direction discards every region's
old-to-old and typed-old-to-old tables across the heap, for every heap
state; afterwards both the untyped and the typed scan visit no slots. -/
theorem C8_clearAll_discards_all (heap : List MemoryChunk)
    (cb : Nat → SlotCallbackResult) (tcb : Nat → Nat → SlotCallbackResult) :
    (∀ c ∈ RememberedSet.ClearAll OLD_TO_OLD rfl heap,
        c.old_to_old_slots = none ∧ c.typed_old_to_old_slots = none) ∧
    (RememberedSet.Iterate OLD_TO_OLD
        (RememberedSet.ClearAll OLD_TO_OLD rfl heap) cb).2 = [] ∧
    (RememberedSet.IterateTyped OLD_TO_OLD
        (RememberedSet.ClearAll OLD_TO_OLD rfl heap) tcb).2 = [] := by
  have hall : ∀ c ∈ RememberedSet.ClearAll OLD_TO_OLD rfl heap,
      c.old_to_old_slots = none ∧ c.typed_old_to_old_slots = none := by
    intro c hc
    obtain ⟨c0, _, rfl⟩ := List.mem_map.mp hc
    exact ⟨rfl, rfl⟩
  refine ⟨hall, ?_, ?_⟩
  · exact iterate_nil_of_no_tables OLD_TO_OLD _ cb (fun c hc => (hall c hc).1)
  · exact iterateTyped_nil_of_no_tables OLD_TO_OLD _ tcb
      (fun c hc => (hall c hc).2)

/-- Witness for C8 on a one-region heap holding both kinds of tables. -/
theorem C8_clearAll_discards_all_witness :
    (∀ c ∈ RememberedSet.ClearAll OLD_TO_OLD rfl [sampleChunkFull],
        c.old_to_old_slots = none ∧ c.typed_old_to_old_slots = none) ∧
    (RememberedSet.Iterate OLD_TO_OLD
        (RememberedSet.ClearAll OLD_TO_OLD rfl [sampleChunkFull])
        (fun _ => KEEP_SLOT)).2 = [] ∧
    (RememberedSet.IterateTyped OLD_TO_OLD
        (RememberedSet.ClearAll OLD_TO_OLD rfl [sampleChunkFull])
        (fun _ _ => KEEP_SLOT)).2 = [] :=
  C8_clearAll_discards_all [sampleChunkFull] (fun _ => KEEP_SLOT)
    (fun _ _ => KEEP_SLOT)

/-- C6 counterexample: on an Old-to-New instance, IterateTyped and
RemoveRangeTyped are not rejected at compile time; they execute at
runtime and act on the typed old-to-old table — here the typed scan
visits the recorded slot and the typed range removal deletes it.  This
refutes the claim that every typed operation is rejected for
Old-to-New; only InsertTyped and ClearAll carry the static guard. -/
theorem C6_counterexample :
    (RememberedSet.IterateTyped OLD_TO_NEW [sampleChunkTyped]
        (fun _ _ => KEEP_SLOT)).2 = [(3, 100)] ∧
    RememberedSet.RemoveRangeTyped OLD_TO_NEW sampleChunkTyped 0 512
      ≠ sampleChunkTyped := by
  decide

/-- C6 amended: InsertTyped and ClearAll are rejected at compile time on
an Old-to-New instance (their static guard admits exactly Old-to-Old),
while RemoveRangeTyped and IterateTyped carry no guard and execute at
runtime identically for either direction, operating on the typed
old-to-old table. -/
theorem C6_amended_guards :
    typedInsertRequirement OLD_TO_OLD ∧ clearAllRequirement OLD_TO_OLD ∧
    ¬ typedInsertRequirement OLD_TO_NEW ∧ ¬ clearAllRequirement OLD_TO_NEW ∧
    (∀ heap tcb, RememberedSet.IterateTyped OLD_TO_NEW heap tcb
        = RememberedSet.IterateTyped OLD_TO_OLD heap tcb) ∧
    (∀ page sA eA, RememberedSet.RemoveRangeTyped OLD_TO_NEW page sA eA
        = RememberedSet.RemoveRangeTyped OLD_TO_OLD page sA eA) :=
  ⟨rfl, rfl, by decide, by decide,
   fun heap tcb => iterateTyped_direction_blind OLD_TO_NEW OLD_TO_OLD heap tcb,
   fun page sA eA => rfl⟩

/-- Witness for the C6 amended theorem at a concrete heap. -/
theorem C6_amended_guards_witness :
    RememberedSet.IterateTyped OLD_TO_NEW [sampleChunkTyped]
        (fun _ _ => KEEP_SLOT)
      = RememberedSet.IterateTyped OLD_TO_OLD [sampleChunkTyped]
          (fun _ _ => KEEP_SLOT) :=
  C6_amended_guards.2.2.2.2.1 [sampleChunkTyped] (fun _ _ => KEEP_SLOT)

/-- C7: for an address inside a region, Insert followed by Remove of the
same address followed by a scan with any callback never visits that
address: the round trip leaves the slot unrecorded.  The bound
hypothesis states the slot-set container's guarantee that every stored
offset lies inside its fixed-size unit. -/
theorem C7_insert_remove_scan (d : PointerDirection) (c : MemoryChunk)
    (a : Nat) (cb : Nat → SlotCallbackResult)
    (hb : boundedSetsB (GetSlotSet d c) = true)
    (h1 : c.address ≤ a) (_h2 : a - c.address < c.size) :
    a ∉ (iterateChunk d
        (RememberedSet.Remove d (RememberedSet.Insert d c a) a) cb).2 := by
  have hr : (a - c.address) % kPageSize < kPageSize :=
    Nat.mod_lt _ (by decide)
  rcases hgc : GetSlotSet d c with _ | sets
  · have hIns : RememberedSet.Insert d c a = setSlotSet d c (some
        ((AllocateSlotSet c).set ((a - c.address) / kPageSize)
          (SlotSet.insert
            ((AllocateSlotSet c).getD ((a - c.address) / kPageSize) [])
            ((a - c.address) % kPageSize)))) := by
      simp only [RememberedSet.Insert, hgc]
    rw [hIns]
    apply remove_not_visited
    · exact getSlotSet_setSlotSet d c _
    · rw [setSlotSet_address]
      exact h1
    · exact bounded_set_insert (bounded_allocate c) hr
  · rw [hgc] at hb
    have hIns : RememberedSet.Insert d c a = setSlotSet d c (some
        (sets.set ((a - c.address) / kPageSize)
          (SlotSet.insert (sets.getD ((a - c.address) / kPageSize) [])
            ((a - c.address) % kPageSize)))) := by
      simp only [RememberedSet.Insert, hgc]
    rw [hIns]
    apply remove_not_visited
    · exact getSlotSet_setSlotSet d c _
    · rw [setSlotSet_address]
      exact h1
    · exact bounded_set_insert (bounded_of_boundedSetsB hb) hr

/-- Witness for C7 at address 50 of the sample region. -/
theorem C7_insert_remove_scan_witness :
    (boundedSetsB (GetSlotSet OLD_TO_NEW sampleChunkOTN) = true ∧
      sampleChunkOTN.address ≤ 50 ∧
      50 - sampleChunkOTN.address < sampleChunkOTN.size) ∧
    50 ∉ (iterateChunk OLD_TO_NEW
        (RememberedSet.Remove OLD_TO_NEW
          (RememberedSet.Insert OLD_TO_NEW sampleChunkOTN 50) 50)
        (fun _ => KEEP_SLOT)).2 :=
  ⟨⟨by decide, by decide, by decide⟩,
   C7_insert_remove_scan OLD_TO_NEW sampleChunkOTN 50 (fun _ => KEEP_SLOT)
     (by decide) (by decide) (by decide)⟩

/-- C5: with start < end ≤ region size (as offsets of a unit-sized
region), RemoveRange removes exactly the recorded offsets whose
addresses fall in [start, end), leaves every other offset recorded, is
a no-op without a table, and on the region holding {10, 50, 200} the
call RemoveRange(40, 100) leaves exactly {10, 200} visitable. -/
theorem C5_removeRange_exact (d : PointerDirection) (c : MemoryChunk)
    (sA eA : Nat) (h1 : c.address ≤ sA) (h2 : sA < eA)
    (h3 : eA - c.address ≤ c.size) (h4 : c.size ≤ kPageSize) :
    (GetSlotSet d c = none → RememberedSet.RemoveRange d c sA eA = c) ∧
    (∀ addr,
      addr ∈ chunkRecordedAddresses d (RememberedSet.RemoveRange d c sA eA)
        ↔ (addr ∈ chunkRecordedAddresses d c ∧ ¬ (sA ≤ addr ∧ addr < eA))) ∧
    chunkRecordedAddresses OLD_TO_NEW
      (RememberedSet.RemoveRange OLD_TO_NEW sampleChunkOTN 40 100)
      = [10, 200] := by
  refine ⟨?_, ?_, by decide⟩
  · intro h
    unfold RememberedSet.RemoveRange
    rw [h]
  · intro addr
    rcases hgc : GetSlotSet d c with _ | sets
    · have hre : RememberedSet.RemoveRange d c sA eA = c := by
        unfold RememberedSet.RemoveRange
        rw [hgc]
      rw [hre]
      unfold chunkRecordedAddresses
      rw [hgc]
      simp
    · have hre : RememberedSet.RemoveRange d c sA eA = setSlotSet d c (some
          (sets.set 0 (SlotSet.removeRange (sets.getD 0 [])
            (sA - c.address) (eA - c.address)))) := by
        simp only [RememberedSet.RemoveRange, hgc]
      set sets2 : List SlotSet := sets.set 0 (SlotSet.removeRange
        (sets.getD 0 []) (sA - c.address) (eA - c.address)) with hsets2
      rw [hre, mem_chunkRecordedAddresses (getSlotSet_setSlotSet d c (some sets2)) addr,
        mem_chunkRecordedAddresses hgc addr]
      rw [setSlotSet_address, pagesOf_setSlotSet]
      cases sets with
      | nil =>
        constructor
        · rintro ⟨p, hp, o, ho, rfl⟩
          rw [hsets2] at ho
          simp at ho
        · rintro ⟨⟨p, hp, o, ho, rfl⟩, hrange⟩
          simp at ho
      | cons s0 restS =>
        have hs2 : sets2 = SlotSet.removeRange s0 (sA - c.address)
            (eA - c.address) :: restS := by
          rw [hsets2]
          rfl
        constructor
        · rintro ⟨p, hp, o, ho, rfl⟩
          rw [hs2] at ho
          cases p with
          | zero =>
            rw [List.getD_cons_zero] at ho
            unfold SlotSet.removeRange at ho
            rw [List.mem_filter] at ho
            obtain ⟨ho1, ho2⟩ := ho
            simp only [decide_eq_true_eq] at ho2
            refine ⟨⟨0, hp, o, by simpa using ho1, rfl⟩, ?_⟩
            omega
          | succ q =>
            rw [List.getD_cons_succ] at ho
            refine ⟨⟨q + 1, hp, o, by simpa using ho, rfl⟩, ?_⟩
            have hmul : kPageSize ≤ (q + 1) * kPageSize :=
              Nat.le_mul_of_pos_left kPageSize (Nat.succ_pos q)
            omega
        · rintro ⟨⟨p, hp, o, ho, rfl⟩, hrange⟩
          rw [hs2]
          cases p with
          | zero =>
            rw [List.getD_cons_zero] at ho
            refine ⟨0, hp, o, ?_, rfl⟩
            rw [List.getD_cons_zero]
            unfold SlotSet.removeRange
            rw [List.mem_filter]
            refine ⟨ho, ?_⟩
            simp only [decide_eq_true_eq]
            omega
          | succ q =>
            rw [List.getD_cons_succ] at ho
            exact ⟨q + 1, hp, o, by simpa using ho, rfl⟩

/-- Witness for C5 on the sample region holding {10, 50, 200}: address
50 is removed by RemoveRange(40, 100) while address 200 survives. -/
theorem C5_removeRange_exact_witness :
    (sampleChunkOTN.address ≤ 40 ∧ (40 : Nat) < 100 ∧
      100 - sampleChunkOTN.address ≤ sampleChunkOTN.size ∧
      sampleChunkOTN.size ≤ kPageSize) ∧
    (50 ∈ chunkRecordedAddresses OLD_TO_NEW
        (RememberedSet.RemoveRange OLD_TO_NEW sampleChunkOTN 40 100)
      ↔ (50 ∈ chunkRecordedAddresses OLD_TO_NEW sampleChunkOTN ∧
          ¬ ((40 : Nat) ≤ 50 ∧ (50 : Nat) < 100))) ∧
    (200 ∈ chunkRecordedAddresses OLD_TO_NEW
        (RememberedSet.RemoveRange OLD_TO_NEW sampleChunkOTN 40 100)
      ↔ (200 ∈ chunkRecordedAddresses OLD_TO_NEW sampleChunkOTN ∧
          ¬ ((40 : Nat) ≤ 200 ∧ (200 : Nat) < 100))) :=
  ⟨⟨by decide, by decide, by decide, by decide⟩,
   (C5_removeRange_exact OLD_TO_NEW sampleChunkOTN 40 100 (by decide)
       (by decide) (by decide) (by decide)).2.1 50,
   (C5_removeRange_exact OLD_TO_NEW sampleChunkOTN 40 100 (by decide)
       (by decide) (by decide) (by decide)).2.1 200⟩

end Claims

end V8

